import Mathlib

/-!
Verification development for an operating-system simulator (process
scheduling and memory management).  The definitions below are a shallow
embedding of the Python sources `pcb.py`, `devices.py`, `memory.py` and
`commands.py`; components of the repository that are not among those files
(notably the queue module providing `PriorityQueue`) are modelled from the
specification and marked as such in their doc comments.
-/

/-- Error kinds of the system, named as in the specification (section 7).
The Python sources raise `IndexError` for an empty-queue dequeue and for a
missing CPU process, `InsufficientMemory`, and `InvalidProcess`; each raise
site is mapped to the corresponding specification name in the doc comment
of the operation that raises it. -/
inductive OSErr where
  | queueEmpty
  | insufficientMemory
  | invalidProcess
  | invalidPage
  | noFit
  | noActiveProcess
  deriving DecidableEq, Repr

/-- Location of a process (`PCB.proc_loc` in `pcb.py`, a string there).
The comparison methods of the PCB branch on the first letter of the
lower-cased string: `r`/`cpu` (ready queue or CPU), `d` (disk drive),
`j` (job pool), anything else.  The enumeration mirrors those branches. -/
inductive ProcLoc where
  | ready
  | cpu
  | disk
  | jobPool
  | other
  deriving DecidableEq, Repr

/-- Process control block, from `PCB.__init__` in `pcb.py`.  Numeric burst
quantities are rationals (Python floats are used only through exact
arithmetic in the claims considered).  `cyl` models `params["cyl"]`; the
claims only involve processes whose cylinder parameter has been set (the
interpreter sets it before a disk insertion), so the unset `None` state is
not modelled.  The derived `pg_size` field of the source is not needed by
any claim and is omitted. -/
structure PCB where
  pid : ℕ
  proc_loc : ProcLoc
  proc_size : ℕ
  proc_pages : ℕ
  alpha : ℚ
  burst_history : List ℚ
  last_est_burst : ℚ
  next_est_burst : ℚ
  curr_burst : ℚ
  page_table : List (Option ℕ)
  cyl : ℕ
  deriving DecidableEq, Repr

/-- Constructor of `PCB` (`PCB.__init__`): fresh process with empty burst
history, both burst estimates equal to `tau`, zero current burst, and a
page table with `pages` unmapped entries. -/
def PCB.init (id_num size pages : ℕ) (alpha tau : ℚ)
    (loc : ProcLoc := ProcLoc.ready) : PCB :=
  { pid := id_num
    proc_loc := loc
    proc_size := size
    proc_pages := pages
    alpha := alpha
    burst_history := []
    last_est_burst := tau
    next_est_burst := tau
    curr_burst := 0
    page_table := List.replicate pages none
    cyl := 0 }

/-- Comparison `PCB.__lt__` from `pcb.py`: the key depends on the location
of the left operand (Python evaluates `self.proc_loc`), exactly as in the
source: ready/CPU compare by `next_est_burst`, disk by cylinder, job pool
by size, and anything else by pid. -/
def PCB.lt (a b : PCB) : Bool :=
  match a.proc_loc with
  | ProcLoc.ready => decide (a.next_est_burst < b.next_est_burst)
  | ProcLoc.cpu => decide (a.next_est_burst < b.next_est_burst)
  | ProcLoc.disk => decide (a.cyl < b.cyl)
  | ProcLoc.jobPool => decide (a.proc_size < b.proc_size)
  | ProcLoc.other => decide (a.pid < b.pid)

/-- Comparison `PCB.__eq__` from `pcb.py`, branching like `PCB.lt`. -/
def PCB.eqB (a b : PCB) : Bool :=
  match a.proc_loc with
  | ProcLoc.ready => decide (a.next_est_burst = b.next_est_burst)
  | ProcLoc.cpu => decide (a.next_est_burst = b.next_est_burst)
  | ProcLoc.disk => decide (a.cyl = b.cyl)
  | ProcLoc.jobPool => decide (a.proc_size = b.proc_size)
  | ProcLoc.other => decide (a.pid = b.pid)

/-- Sorted insertion as performed by `bisect.insort` on a list of PCBs:
the new element is inserted before the first element `b` with `x < b`
(hence after any element comparing equal to `x`), using `PCB.lt` with the
new element as left operand, exactly as `bisect_right` does. -/
def insort (x : PCB) : List PCB → List PCB
  | [] => [x]
  | b :: l => if PCB.lt x b then x :: b :: l else b :: insort x l

/-- Burst-estimate update `PCB.calc_next_est_burst` from `pcb.py`:
`next_est_burst` becomes `lastRecordedBurst * (1 - alpha) + last_est_burst
* alpha` (note that `alpha` weighs the previous estimate in the source),
and `last_est_burst` is set to the new value.  On an empty burst history
the source would raise `IndexError` from `burst_history[-1]`; the method is
only invoked right after an append (`record_burst_time`), so that branch is
unreachable and the model returns the PCB unchanged there. -/
def PCB.calc_next_est_burst (p : PCB) : PCB :=
  match p.burst_history.getLast? with
  | some lastBurst =>
      let n := lastBurst * (1 - p.alpha) + p.last_est_burst * p.alpha
      { p with next_est_burst := n, last_est_burst := n }
  | none => p

/-- Burst recording `PCB.record_burst_time` from `pcb.py`: adds the burst
to the current-burst accumulator, appends the accumulator value (not the
argument alone) to the burst history, and recomputes the estimate. -/
def PCB.record_burst_time (p : PCB) (burst : ℚ) : PCB :=
  let cb := p.curr_burst + burst
  PCB.calc_next_est_burst
    { p with curr_burst := cb, burst_history := p.burst_history ++ [cb] }

/-- Page-table update `PCB.allocate_memory` from `pcb.py`: assigns the
frame to the page if the page index is a key of the page table, else
raises `IndexError` (the specification names this failure InvalidPage). -/
def PCB.allocate_memory (p : PCB) (page frame : ℕ) : Except OSErr PCB :=
  if page < p.page_table.length then
    Except.ok { p with page_table := p.page_table.set page (some frame) }
  else
    Except.error OSErr.invalidPage

/-- Modelled from the spec: the queue module (`queues.py`, providing
`PriorityQueue`) is not among the given sources.  Per the specification
(section 3) a priority queue is an ordered sequence of processes, ordered
by the context-dependent PCB comparison, carrying a boolean frozen flag;
enqueue inserts in sorted order and dequeue removes the minimum element.
Per section 4.3 the disk drive dequeues from the queue that is frozen for
service, so the flag is bookkeeping used by the disk drive to assign roles
and does not itself block `dequeue` here. -/
structure PriorityQueue where
  items : List PCB
  frozen : Bool
  deriving DecidableEq, Repr

/-- Modelled from the spec: sorted insertion into a priority queue. -/
def PriorityQueue.enqueue (q : PriorityQueue) (p : PCB) : PriorityQueue :=
  { q with items := insort p q.items }

/-- Modelled from the spec: removal of the minimum element (the head of
the sorted item list); on an empty queue the dequeue fails (QueueEmpty). -/
def PriorityQueue.dequeue (q : PriorityQueue) : Option (PCB × PriorityQueue) :=
  match q.items with
  | [] => none
  | p :: rest => some (p, { q with items := rest })

/-- Modelled from the spec: set the frozen flag. -/
def PriorityQueue.freeze (q : PriorityQueue) : PriorityQueue :=
  { q with frozen := true }

/-- Modelled from the spec: clear the frozen flag. -/
def PriorityQueue.unfreeze (q : PriorityQueue) : PriorityQueue :=
  { q with frozen := false }

/-- Modelled from the spec: emptiness test of a priority queue (used by
`DiskDrive` as `empty()`). -/
def PriorityQueue.isEmptyQ (q : PriorityQueue) : Bool :=
  q.items.isEmpty

/-- Disk drive with two priority queues implementing FSCAN, from
`DiskDrive.__init__` in `devices.py` (the device name and cylinder count
play no role in any claim and are omitted). -/
structure DiskDrive where
  q1 : PriorityQueue
  q2 : PriorityQueue
  deriving DecidableEq, Repr

/-- Initial disk-drive state from `DiskDrive.__init__`: both queues empty,
`q2` frozen. -/
def DiskDrive.start : DiskDrive :=
  { q1 := { items := [], frozen := false }
    q2 := { items := [], frozen := true } }

/-- FSCAN enqueue from `DiskDrive.enqueue` in `devices.py`: add to the
unfrozen queue; if the frozen queue is empty afterwards, swap the frozen
flags.  The location update to the disk-drive device is modelled from the
spec (section 3: the location is mutated by whichever component holds the
process; the FIFO `Device.enqueue` in the source does the same). -/
def DiskDrive.enqueue (d : DiskDrive) (p0 : PCB) : DiskDrive :=
  let p := { p0 with proc_loc := ProcLoc.disk }
  if d.q1.frozen then
    let q2 := d.q2.enqueue p
    if d.q1.isEmptyQ then
      { q1 := d.q1.unfreeze, q2 := q2.freeze }
    else
      { d with q2 := q2 }
  else
    let q1 := d.q1.enqueue p
    if d.q2.isEmptyQ then
      { q1 := q1.freeze, q2 := d.q2.unfreeze }
    else
      { d with q1 := q1 }

/-- FSCAN dequeue from `DiskDrive.dequeue` in `devices.py`: remove the
head of the frozen queue; if that queue becomes empty, swap the frozen
flags.  Dequeuing when the frozen queue is empty fails (`none`), modelling
the exception propagating from the inner queue. -/
def DiskDrive.dequeue (d : DiskDrive) : Option (PCB × DiskDrive) :=
  if d.q1.frozen then
    match d.q1.dequeue with
    | none => none
    | some (p, q1) =>
        some (p, if q1.isEmptyQ then
                   { q1 := q1.unfreeze, q2 := d.q2.freeze }
                 else
                   { d with q1 := q1 })
  else
    match d.q2.dequeue with
    | none => none
    | some (p, q2) =>
        some (p, if q2.isEmptyQ then
                   { q1 := d.q1.freeze, q2 := q2.unfreeze }
                 else
                   { d with q2 := q2 })

/-- Which side is currently frozen for service (`true` when `q1`). -/
def DiskDrive.side (d : DiskDrive) : Bool :=
  d.q1.frozen

/-- Items of the serving queue: the frozen one (`DiskDrive.dequeue` pops
from it). -/
def DiskDrive.servingItems (d : DiskDrive) : List PCB :=
  if d.q1.frozen then d.q1.items else d.q2.items

/-- Items of the collecting queue: the unfrozen one (`DiskDrive.enqueue`
inserts into it). -/
def DiskDrive.collectingItems (d : DiskDrive) : List PCB :=
  if d.q1.frozen then d.q2.items else d.q1.items

/-- States of the disk drive reachable from the initial state by enqueue
and dequeue operations. -/
inductive DiskDrive.Reach : DiskDrive → Prop where
  | start : DiskDrive.Reach DiskDrive.start
  | enq {d : DiskDrive} (p : PCB) : DiskDrive.Reach d →
      DiskDrive.Reach (d.enqueue p)
  | deq {d d' : DiskDrive} {p : PCB} : DiskDrive.Reach d →
      d.dequeue = some (p, d') → DiskDrive.Reach d'

/-- CPU with an optional active process and a ready priority queue, from
`CPU.__init__` in `devices.py` (the CPU inherits the priority queue; the
queue is modelled by its sorted item list, and is never frozen). -/
structure CPU where
  active : Option PCB
  ready : List PCB
  deriving DecidableEq, Repr

/-- Initial CPU: no active process, empty ready queue. -/
def CPU.start : CPU :=
  { active := none, ready := [] }

/-- Emptiness test `CPU.empty` from `devices.py`, verbatim
`True if self.active else False`: it answers `true` exactly when an
active process is present, the opposite of what its name suggests. -/
def CPU.empty (c : CPU) : Bool :=
  c.active.isSome

/-- Admission `CPU.enqueue` from `devices.py`: with no active process the
process becomes active (location CPU); otherwise it is inserted into the
ready priority queue (location Ready). -/
def CPU.enqueue (c : CPU) (p : PCB) : CPU :=
  match c.active with
  | none => { c with active := some { p with proc_loc := ProcLoc.cpu } }
  | some _ => { c with ready := insort { p with proc_loc := ProcLoc.ready } c.ready }

/-- Dispatch `CPU.ready_to_CPU` from `devices.py`.  The source guards the
dequeue with `if PriorityQueue:`, a test of the class object itself, which
is always truthy; the `else` branch that would clear the active slot is
therefore unreachable, and the dequeue of an empty ready queue fails
(QueueEmpty), which this model propagates as an error. -/
def CPU.ready_to_CPU (c : CPU) : Except OSErr CPU :=
  match c.ready with
  | [] => Except.error OSErr.queueEmpty
  | p :: rest => Except.ok { c with active := some p, ready := rest }

/-- Termination `CPU.terminate` from `devices.py`: with no active process
it raises `IndexError` (the specification names this NoActiveProcess);
otherwise it discards the active process and dispatches via
`ready_to_CPU`. -/
def CPU.terminate (c : CPU) : Except OSErr CPU :=
  match c.active with
  | none => Except.error OSErr.noActiveProcess
  | some _ => CPU.ready_to_CPU c

/-- Routing decision of the command interpreter (`SysCommand.do_a` in
`commands.py`): a new process is made the active CPU process when
`cpu.empty()` answers `true`, and is inserted into the ready queue
otherwise. -/
def SysCommand.do_a_route (c : CPU) : Bool :=
  CPU.empty c

/-- Memory from `Memory.__init__` in `memory.py`: a frame table mapping
each frame index to an owning (pid, page) pair or nothing, and the list of
free frame indices (a deque in the source, popped from the left). -/
structure MemoryState where
  page_size : ℕ
  frame_table : List (Option (ℕ × ℕ))
  free_frames : List ℕ
  deriving DecidableEq, Repr

/-- Outcome of a memory allocation.  Python mutates the memory and the
process in place and raises on failure, so a failure outcome carries the
state at the moment of the raise (for `InsufficientMemory` this is the
unchanged input state, since the check precedes any mutation). -/
inductive AllocOutcome where
  | ok (m : MemoryState) (p : PCB)
  | err (e : OSErr) (m : MemoryState) (p : PCB)
  deriving DecidableEq, Repr

/-- Constructor of `MemoryState` (`Memory.__init__` with size `s` and page
size `p`): `s / p` empty frames, all initially free in index order. -/
def MemoryState.init (s p : ℕ) : MemoryState :=
  { page_size := p
    frame_table := List.replicate (s / p) none
    free_frames := List.range (s / p) }

/-- Free memory `Memory.free_mem` from `memory.py`: number of free frames
times the page size. -/
def MemoryState.free_mem (m : MemoryState) : ℕ :=
  m.free_frames.length * m.page_size

/-- Allocation loop of `Memory.allocate`: for each page index in turn, pop
the first free frame, record the owner in the frame table and the frame in
the page table of the process.  Popping from an empty free list raises
`IndexError` in the source (an empty-queue dequeue, QueueEmpty in the
specification), after the preceding frames were already consumed, so the
error outcome carries the partially updated state, as in Python. -/
def Memory.allocGo : List ℕ → MemoryState → PCB → AllocOutcome
  | [], m, p => AllocOutcome.ok m p
  | pg :: rest, m, p =>
      match m.free_frames with
      | [] => AllocOutcome.err OSErr.queueEmpty m p
      | f :: fs =>
          let m' : MemoryState :=
            { m with
              free_frames := fs
              frame_table := m.frame_table.set f (some (p.pid, pg)) }
          match PCB.allocate_memory p pg f with
          | Except.error e => AllocOutcome.err e m' p
          | Except.ok p' => Memory.allocGo rest m' p'

/-- Allocation `Memory.allocate` from `memory.py`: fails with
InsufficientMemory (leaving everything unchanged) when the process size
exceeds the free memory, else assigns one free frame to every page index
of the process, in page order. -/
def Memory.allocate (m : MemoryState) (p : PCB) : AllocOutcome :=
  if m.free_mem < p.proc_size then
    AllocOutcome.err OSErr.insufficientMemory m p
  else
    Memory.allocGo (List.range p.proc_pages) m p

/-- Ceiling division on naturals, `ceil(a / b)` of the specification. -/
def ceilDiv (a b : ℕ) : ℕ :=
  (a + b - 1) / b

/-- Index search of a Python list, `list.index(v)` as used by
`JobPool.dequeue_largest` and `JobPool.dequeue`: the index of the first
element comparing equal to `v` under `PCB.__eq__` (the element is the left
operand; the CPython identity shortcut is subsumed because the equality is
reflexive on the relevant fields). -/
def pyIndex (v : PCB) : List PCB → Option ℕ
  | [] => none
  | a :: l => if PCB.eqB a v then some 0 else (pyIndex v l).map (· + 1)

/-- Removal `list.pop(i)` of a Python list: returns the element at index
`i` and the list without it. -/
def pyPop (l : List PCB) (i : ℕ) : Option (PCB × List PCB) :=
  match l[i]? with
  | some a => some (a, l.eraseIdx i)
  | none => none

/-- Job-pool insertion `JobPool.enqueue` from `memory.py`: the location is
set to the job pool, then the process is inserted keeping the pool sorted
(`bisect.insort`, comparing by size in this location). -/
def JobPool.enqueue (q : List PCB) (p : PCB) : List PCB :=
  insort { p with proc_loc := ProcLoc.jobPool } q

/-- Best-fit removal `JobPool.dequeue_largest` from `memory.py`: raises
`IndexError` on an empty pool (QueueEmpty in the specification); else
walks the sorted pool from the largest end and, for the first process that
fits, pops the pool entry at `list.index` of it, which is the first entry
of equal size; if nothing fits it raises `InvalidProcess` (the
specification names this failure NoFit).  The two `none` fallbacks are
unreachable because the found process is a member of the pool. -/
def JobPool.dequeue_largest (q : List PCB) (free_mem : ℕ) :
    Except OSErr (PCB × List PCB) :=
  if q.isEmpty then
    Except.error OSErr.queueEmpty
  else
    match q.reverse.find? (fun p => p.proc_size ≤ free_mem) with
    | none => Except.error OSErr.noFit
    | some p =>
        match pyIndex p q with
        | none => Except.error OSErr.invalidProcess
        | some i =>
            match pyPop q i with
            | none => Except.error OSErr.invalidProcess
            | some (r, rest) => Except.ok (r, rest)

/-- Pid removal `JobPool.dequeue` from `memory.py`: raises `IndexError` on
an empty pool (QueueEmpty); else finds the process with the given pid and
pops the pool entry at `list.index` of it — which compares by size in the
job pool, so it is the first entry of equal size, not necessarily the one
with the given pid; raises `InvalidProcess` when no pid matches.  The two
`none` fallbacks are unreachable as above. -/
def JobPool.dequeue (q : List PCB) (pid : ℕ) : Except OSErr (PCB × List PCB) :=
  if q.isEmpty then
    Except.error OSErr.queueEmpty
  else
    match q.find? (fun p => p.pid == pid) with
    | none => Except.error OSErr.invalidProcess
    | some p =>
        match pyIndex p q with
        | none => Except.error OSErr.invalidProcess
        | some i =>
            match pyPop q i with
            | none => Except.error OSErr.invalidProcess
            | some (r, rest) => Except.ok (r, rest)

/-- Location update performed by `JobPool.enqueue` (`set_proc_loc` to the
job pool) before insertion. -/
def toPool (p : PCB) : PCB :=
  { p with proc_loc := ProcLoc.jobPool }

/-- Location update performed by `CPU.enqueue` (`set_proc_loc("Ready")`)
before insertion into the ready queue. -/
def toReady (p : PCB) : PCB :=
  { p with proc_loc := ProcLoc.ready }

/-- Job pool built by enqueuing the given processes in order into an
empty pool. -/
def JobPool.ofList (ps : List PCB) : List PCB :=
  ps.foldl JobPool.enqueue []

/-- CPU state built by admitting the given processes in order starting
from the initial CPU. -/
def CPU.ofList (ps : List PCB) : CPU :=
  ps.foldl CPU.enqueue CPU.start

/-- Item list sorted by requested cylinder. -/
def cylSorted (l : List PCB) : Prop :=
  l.Pairwise (fun a b => a.cyl ≤ b.cyl)

/-- Item list sorted by process size. -/
def sizeSorted (l : List PCB) : Prop :=
  l.Pairwise (fun a b => a.proc_size ≤ b.proc_size)

/-- Item list sorted by next estimated burst. -/
def burstSorted (l : List PCB) : Prop :=
  l.Pairwise (fun a b => a.next_est_burst ≤ b.next_est_burst)

/-- Every process of the list is located in the disk drive. -/
def allDisk (l : List PCB) : Prop :=
  ∀ p ∈ l, p.proc_loc = ProcLoc.disk

/-- Every process of the list is located in the job pool. -/
def allPool (l : List PCB) : Prop :=
  ∀ p ∈ l, p.proc_loc = ProcLoc.jobPool

/-- Every process of the list is located in the ready queue. -/
def allReady (l : List PCB) : Prop :=
  ∀ p ∈ l, p.proc_loc = ProcLoc.ready

/-- Invariant of the disk drive maintained by enqueue and dequeue:
exactly one queue is frozen, both item lists are sorted by cylinder and
hold disk-located processes, and the serving (frozen) queue can only be
empty when the collecting queue is empty too. -/
def DiskDrive.Inv (d : DiskDrive) : Prop :=
  d.q1.frozen ≠ d.q2.frozen ∧
  cylSorted d.q1.items ∧ cylSorted d.q2.items ∧
  allDisk d.q1.items ∧ allDisk d.q2.items ∧
  (d.servingItems = [] → d.collectingItems = [])

/-- Disk process fixture: a fresh PCB with a requested cylinder, used by
the concrete disk-drive scenarios. -/
def dproc (idn c : ℕ) : PCB :=
  { PCB.init idn 1 1 0 0 with cyl := c }

/-- Disk-drive fixture: the initial drive after enqueuing requests for
cylinders 50 and then 20. -/
def diskW : DiskDrive :=
  (DiskDrive.start.enqueue (dproc 1 50)).enqueue (dproc 2 20)

theorem PCB.record_burst_time_fields (p : PCB) (b : ℚ) :
    (p.record_burst_time b).curr_burst = p.curr_burst + b ∧
    (p.record_burst_time b).burst_history = p.burst_history ++ [p.curr_burst + b] ∧
    (p.record_burst_time b).next_est_burst
      = (p.curr_burst + b) * (1 - p.alpha) + p.last_est_burst * p.alpha ∧
    (p.record_burst_time b).last_est_burst = (p.record_burst_time b).next_est_burst ∧
    (p.record_burst_time b).alpha = p.alpha := by
  simp [PCB.record_burst_time, PCB.calc_next_est_burst, List.getLast?_concat]

/-- C1 (counterexample): the claim fails on the code in two ways.  With
alpha = 1/2 and tau = 10, recording bursts 6 then 4 yields a second
estimate of 9, not 6, and a burst history of [6, 10], not [6, 4], because
`record_burst_time` appends the never-cleared accumulator `curr_burst`
rather than the elapsed time alone.  And with alpha = 1/4, tau = 10, a
first burst of 6 yields 7 = 6*(1-alpha) + 10*alpha, while the claimed
formula alpha*lastBurst + (1-alpha)*lastEstimatedBurst yields 9: the code
weighs the previous estimate, not the most recent burst, by alpha. -/
theorem record_burst_time_claim_cex :
    (((PCB.init 1 10 1 (1/2) 10).record_burst_time 6).record_burst_time 4).next_est_burst = 9 ∧
    (9 : ℚ) ≠ 6 ∧
    (((PCB.init 1 10 1 (1/2) 10).record_burst_time 6).record_burst_time 4).burst_history
      = [6, 10] ∧
    ([6, 10] : List ℚ) ≠ [6, 4] ∧
    ((PCB.init 2 10 1 (1/4) 10).record_burst_time 6).next_est_burst = 7 ∧
    ((1 : ℚ)/4) * 6 + (1 - (1 : ℚ)/4) * 10 = 9 ∧
    (7 : ℚ) ≠ 9 := by
  refine ⟨by norm_num [PCB.record_burst_time, PCB.calc_next_est_burst, PCB.init], by norm_num,
    by norm_num [PCB.record_burst_time, PCB.calc_next_est_burst, PCB.init], by simp, ?_, by norm_num, by norm_num⟩
  norm_num [PCB.record_burst_time, PCB.calc_next_est_burst, PCB.init]

/-- C1 (amended): for every PCB, `record_burst_time(elapsed)` adds
`elapsed` to the current-burst accumulator, appends the accumulator value
(not `elapsed` alone) to the burst history — so total CPU time grows by
that amount — and recomputes `nextEstimatedBurst = (1 - alpha) *
lastAppendedBurst + alpha * lastEstimatedBurst` (alpha weighs the previous
estimate), then sets `lastEstimatedBurst = nextEstimatedBurst`; with
alpha = 1/2 and tau = 10 recording bursts 6 then 4 yields estimates 8 and
then 9. -/
theorem record_burst_time_spec (p : PCB) (b : ℚ) :
    (p.record_burst_time b).curr_burst = p.curr_burst + b ∧
    (p.record_burst_time b).burst_history = p.burst_history ++ [p.curr_burst + b] ∧
    (p.record_burst_time b).burst_history.sum
      = p.burst_history.sum + (p.curr_burst + b) ∧
    (p.record_burst_time b).next_est_burst
      = (p.curr_burst + b) * (1 - p.alpha) + p.last_est_burst * p.alpha ∧
    (p.record_burst_time b).last_est_burst = (p.record_burst_time b).next_est_burst ∧
    ((PCB.init 1 10 1 (1/2) 10).record_burst_time 6).next_est_burst = 8 ∧
    (((PCB.init 1 10 1 (1/2) 10).record_burst_time 6).record_burst_time 4).next_est_burst
      = 9 := by
  obtain ⟨h1, h2, h3, h4, h5⟩ := PCB.record_burst_time_fields p b
  refine ⟨h1, h2, ?_, h3, h4, ?_, ?_⟩
  · rw [h2]; simp
  · norm_num [PCB.record_burst_time, PCB.calc_next_est_burst, PCB.init]
  · norm_num [PCB.record_burst_time, PCB.calc_next_est_burst, PCB.init]

/-- C4: for every memory state and process whose size exceeds the free
memory (free frame count times frame size), `Memory.allocate` fails with
InsufficientMemory and carries back the unchanged memory and process. -/
theorem memory_allocate_insufficient (m : MemoryState) (p : PCB)
    (h : m.free_mem < p.proc_size) :
    Memory.allocate m p = AllocOutcome.err OSErr.insufficientMemory m p := by
  simp [Memory.allocate, h]

/-- C4 (witness): a memory of one 100-byte frame rejects a 200-byte
process unchanged. -/
theorem memory_allocate_insufficient_witness :
    Memory.allocate (MemoryState.init 100 100) (PCB.init 1 200 2 0 0)
      = AllocOutcome.err OSErr.insufficientMemory (MemoryState.init 100 100)
          (PCB.init 1 200 2 0 0) :=
  memory_allocate_insufficient _ _ (by decide)

/-- C7 (evaluation at the failing input): with two equal-size processes in
the job pool (pid 1 enqueued first, then pid 2, both of size 10),
`JobPool.dequeue(2)` removes and returns the process with pid 1, because
`list.index` searches with the size-based job-pool `__eq__` and finds the
first entry of equal size — contradicting the docstring "Dequeue and
return given process". -/
theorem jobpool_dequeue_pid_bug :
    JobPool.dequeue
        (JobPool.enqueue (JobPool.enqueue [] (PCB.init 1 10 1 0 0)) (PCB.init 2 10 1 0 0)) 2
      = Except.ok (toPool (PCB.init 1 10 1 0 0), [toPool (PCB.init 2 10 1 0 0)]) ∧
    (toPool (PCB.init 1 10 1 0 0)).pid = 1 ∧ (1 : ℕ) ≠ 2 := by
  refine ⟨rfl, rfl, by decide⟩

/-- C8 (evaluation): `CPU.terminate` fails with NoActiveProcess on an
empty CPU, and with a non-empty ready queue it discards the active process
and dispatches the head; but with an active process and an empty ready
queue it fails with QueueEmpty instead of leaving the CPU empty, because
the guard `if PriorityQueue:` in `ready_to_CPU` tests the class object
(always truthy), making the empty-ready branch unreachable. -/
theorem cpu_terminate_eval :
    CPU.terminate { active := none, ready := [] } = Except.error OSErr.noActiveProcess ∧
    CPU.terminate { active := some (PCB.init 7 1 1 0 3), ready := [] }
      = Except.error OSErr.queueEmpty ∧
    CPU.terminate { active := some (PCB.init 7 1 1 0 3), ready := [PCB.init 8 1 1 0 4] }
      = Except.ok { active := some (PCB.init 8 1 1 0 4), ready := [] } := by
  refine ⟨rfl, rfl, rfl⟩

/-- C10: `CPU.empty` answers `true` exactly when an active process is
present (in particular `false` on a freshly constructed CPU), the opposite
of what its name suggests; and the `do_a` command routes a new process to
the active slot exactly when `empty()` is `true`, i.e. exactly when a
process is already active — the inverted branch. -/
theorem cpu_empty_inverted :
    (∀ c : CPU, CPU.empty c = c.active.isSome) ∧
    CPU.empty CPU.start = false ∧
    CPU.empty { active := some (PCB.init 1 10 1 0 0), ready := [] } = true ∧
    (∀ c : CPU, SysCommand.do_a_route c = true ↔ c.active ≠ none) := by
  refine ⟨fun c => rfl, rfl, rfl, fun c => ?_⟩
  simp [SysCommand.do_a_route, CPU.empty, Option.isSome_iff_ne_none]

theorem insort_mem (x a : PCB) (l : List PCB) :
    a ∈ insort x l ↔ a = x ∨ a ∈ l := by
  induction l with
  | nil => simp [insort]
  | cons b t ih =>
    simp only [insort]
    split
    · simp only [List.mem_cons]
    · simp only [List.mem_cons, ih]
      tauto

theorem insort_sorted {α : Type} [LinearOrder α] (k : PCB → α) (x : PCB) (l : List PCB)
    (hx : ∀ b, PCB.lt x b = decide (k x < k b))
    (hs : l.Pairwise (fun a b => k a ≤ k b)) :
    (insort x l).Pairwise (fun a b => k a ≤ k b) := by
  induction l with
  | nil => simp [insort]
  | cons b t ih =>
    rw [List.pairwise_cons] at hs
    obtain ⟨hb, ht⟩ := hs
    simp only [insort, hx b]
    split
    case isTrue h =>
      rw [decide_eq_true_iff] at h
      refine List.Pairwise.cons ?_ (List.Pairwise.cons hb ht)
      intro a ha
      rcases List.mem_cons.mp ha with rfl | hat
      · exact le_of_lt h
      · exact le_of_lt (lt_of_lt_of_le h (hb a hat))
    case isFalse h =>
      rw [decide_eq_true_iff, not_lt] at h
      refine List.Pairwise.cons ?_ (ih ht)
      intro a ha
      rcases (insort_mem x a t).mp ha with rfl | hat
      · exact h
      · exact hb a hat

theorem insort_filter {α : Type} [LinearOrder α] (k : PCB → α) (x : PCB) (l : List PCB) (s : α)
    (hx : ∀ b, PCB.lt x b = decide (k x < k b))
    (hs : l.Pairwise (fun a b => k a ≤ k b)) :
    (insort x l).filter (fun q => decide (k q = s))
      = if k x = s then l.filter (fun q => decide (k q = s)) ++ [x]
        else l.filter (fun q => decide (k q = s)) := by
  induction l with
  | nil =>
    by_cases hxs : k x = s
    · rw [if_pos hxs]
      simp [insort, hxs]
    · rw [if_neg hxs]
      simp [insort, hxs]
  | cons b t ih =>
    rw [List.pairwise_cons] at hs
    obtain ⟨hb, ht⟩ := hs
    simp only [insort, hx b]
    split
    case isTrue h =>
      rw [decide_eq_true_iff] at h
      by_cases hxs : k x = s
      · have hnil : (b :: t).filter (fun q => decide (k q = s)) = [] := by
          rw [List.filter_eq_nil_iff]
          intro a ha
          have hba : k b ≤ k a := by
            rcases List.mem_cons.mp ha with rfl | hat
            · exact le_refl _
            · exact hb a hat
          have hlt : k x < k a := lt_of_lt_of_le h hba
          simp only [decide_eq_true_iff]
          intro heq
          rw [heq, hxs] at hlt
          exact absurd hlt (lt_irrefl s)
        rw [if_pos hxs, List.filter_cons_of_pos (by simp [hxs]), hnil]
        simp
      · rw [if_neg hxs, List.filter_cons_of_neg (by simp [hxs])]
    case isFalse h =>
      by_cases hbs : k b = s
      · rw [List.filter_cons_of_pos (by simp [hbs]), ih ht]
        by_cases hxs : k x = s
        · rw [if_pos hxs, if_pos hxs, List.filter_cons_of_pos (by simp [hbs])]
          simp
        · rw [if_neg hxs, if_neg hxs, List.filter_cons_of_pos (by simp [hbs])]
      · rw [List.filter_cons_of_neg (by simp [hbs]), ih ht]
        by_cases hxs : k x = s
        · rw [if_pos hxs, if_pos hxs, List.filter_cons_of_neg (by simp [hbs])]
        · rw [if_neg hxs, if_neg hxs, List.filter_cons_of_neg (by simp [hbs])]

theorem Memory.allocGo_ok (pgs : List ℕ) :
    ∀ (m : MemoryState) (p : PCB) (m' : MemoryState) (p' : PCB),
    pgs.Nodup → (∀ i ∈ pgs, i < p.page_table.length) →
    Memory.allocGo pgs m p = AllocOutcome.ok m' p' →
    pgs.length ≤ m.free_frames.length ∧
    m'.free_frames = m.free_frames.drop pgs.length ∧
    p'.page_table.length = p.page_table.length ∧
    (∀ j : ℕ, j ∉ pgs → p'.page_table[j]? = p.page_table[j]?) ∧
    (∀ k pg f : ℕ, pgs[k]? = some pg → m.free_frames[k]? = some f →
       p'.page_table[pg]? = some (some f)) := by
  induction pgs with
  | nil =>
    intro m p m' p' _ _ h
    simp only [Memory.allocGo] at h
    cases h
    refine ⟨Nat.zero_le _, by simp, rfl, fun j _ => rfl, ?_⟩
    intro k pg f hpg _
    simp at hpg
  | cons pg rest ih =>
    intro m p m' p' hnd hbd h
    rw [List.nodup_cons] at hnd
    obtain ⟨hpgrest, hndrest⟩ := hnd
    have hpglt : pg < p.page_table.length := hbd pg (by simp)
    cases hff : m.free_frames with
    | nil =>
      rw [Memory.allocGo, hff] at h
      exact absurd h (by simp)
    | cons f fs =>
      have hstep : Memory.allocGo (pg :: rest) m p
          = Memory.allocGo rest
              { m with free_frames := fs,
                       frame_table := m.frame_table.set f (some (p.pid, pg)) }
              { p with page_table := p.page_table.set pg (some f) } := by
        rw [Memory.allocGo, hff]
        simp only [PCB.allocate_memory, if_pos hpglt]
      rw [hstep] at h
      have hlen1 : (p.page_table.set pg (some f)).length = p.page_table.length :=
        List.length_set p.page_table pg (some f)
      obtain ⟨ih1, ih2, ih3, ih4, ih5⟩ :=
        ih _ _ _ _ hndrest (fun i hi => by rw [hlen1]; exact hbd i (List.mem_cons_of_mem _ hi)) h
      simp only at ih1 ih2 ih5
      refine ⟨?_, ?_, ?_, ?_, ?_⟩
      · simpa using Nat.succ_le_succ ih1
      · simpa using ih2
      · rw [ih3, hlen1]
      · intro j hj
        rw [List.mem_cons, not_or] at hj
        rw [ih4 j hj.2]
        exact List.getElem?_set_ne (Ne.symm hj.1)
      · intro k pg0 f0 hpg0 hf0
        cases k with
        | zero =>
          rw [List.getElem?_cons_zero] at hpg0 hf0
          cases hpg0
          cases hf0
          rw [ih4 pg hpgrest]
          exact List.getElem?_set_self hpglt
        | succ k =>
          rw [List.getElem?_cons_succ] at hpg0 hf0
          exact ih5 k pg0 f0 hpg0 hf0

/-- C3 (counterexample): a process of size 100 with 2 pages, allocated in
a memory of frame size 100 with 10 free frames, succeeds and consumes 2
frames (one per page), not ceil(100/100) = 1: the number of frames taken
is the page count of the process, which the constructor accepts
independently of its size. -/
theorem memory_allocate_ceil_cex :
    Memory.allocate (MemoryState.init 1000 100) (PCB.init 1 100 2 0 0)
      = AllocOutcome.ok
          { page_size := 100
            frame_table := [some (1, 0), some (1, 1), none, none, none,
                            none, none, none, none, none]
            free_frames := [2, 3, 4, 5, 6, 7, 8, 9] }
          { PCB.init 1 100 2 0 0 with page_table := [some 0, some 1] } ∧
    ([2, 3, 4, 5, 6, 7, 8, 9] : List ℕ).length = 8 ∧
    (MemoryState.init 1000 100).free_frames.length
      - ceilDiv (PCB.init 1 100 2 0 0).proc_size (MemoryState.init 1000 100).page_size
      = 9 ∧
    (8 : ℕ) ≠ 9 := by
  refine ⟨by decide, by decide, by decide, by decide⟩

/-- C3 (amended): for every memory state with duplicate-free free-frame
list and every process whose page table has one entry per page, a
successful `Memory.allocate` removes exactly `proc_pages` frames from the
free-frame list — which equals `ceil(size / frameSize)` whenever the page
count was derived that way — and maps every page of the process to a
frame that was free before the call, no two pages sharing a frame. -/
theorem memory_allocate_success_spec (m : MemoryState) (p : PCB) (m' : MemoryState) (p' : PCB)
    (hnd : m.free_frames.Nodup) (hpt : p.page_table.length = p.proc_pages)
    (hok : Memory.allocate m p = AllocOutcome.ok m' p') :
    m'.free_frames.length = m.free_frames.length - p.proc_pages ∧
    (p.proc_pages = ceilDiv p.proc_size m.page_size →
       m'.free_frames.length = m.free_frames.length - ceilDiv p.proc_size m.page_size) ∧
    (∀ i, i < p.proc_pages → ∃ f, p'.page_table[i]? = some (some f) ∧ f ∈ m.free_frames ∧
       ∀ j, j < p.proc_pages → j ≠ i → p'.page_table[j]? ≠ some (some f)) := by
  rw [Memory.allocate] at hok
  by_cases hins : m.free_mem < p.proc_size
  · rw [if_pos hins] at hok
    exact absurd hok (by simp)
  · rw [if_neg hins] at hok
    obtain ⟨h1, h2, h3, h4, h5⟩ :=
      Memory.allocGo_ok (List.range p.proc_pages) m p m' p' (List.nodup_range _)
        (fun i hi => by rw [hpt]; exact List.mem_range.mp hi) hok
    rw [List.length_range] at h1
    have hlen : m'.free_frames.length = m.free_frames.length - p.proc_pages := by
      rw [h2, List.length_drop, List.length_range]
    refine ⟨hlen, fun hceil => by rw [← hceil]; exact hlen, ?_⟩
    intro i hi
    have hfi : ∃ f, m.free_frames[i]? = some f := by
      have : i < m.free_frames.length := lt_of_lt_of_le hi h1
      exact ⟨m.free_frames[i], List.getElem?_eq_getElem this⟩
    obtain ⟨f, hf⟩ := hfi
    have hri : (List.range p.proc_pages)[i]? = some i := by
      rw [List.getElem?_range hi]
    refine ⟨f, h5 i i f hri hf, List.getElem?_mem hf, ?_⟩
    intro j hj hji habs
    have hfj : ∃ g, m.free_frames[j]? = some g := by
      have : j < m.free_frames.length := lt_of_lt_of_le hj h1
      exact ⟨m.free_frames[j], List.getElem?_eq_getElem this⟩
    obtain ⟨g, hg⟩ := hfj
    have hrj : (List.range p.proc_pages)[j]? = some j := by
      rw [List.getElem?_range hj]
    have hgj : p'.page_table[j]? = some (some g) := h5 j j g hrj hg
    rw [habs] at hgj
    have hfg : f = g := by
      simpa using hgj
    subst hfg
    have : i = j := List.getElem?_inj (lt_of_lt_of_le hi h1) hnd (hf.trans hg.symm)
    exact hji this.symm

/-- C3 (witness): allocating a 450-byte, 5-page process in a fresh memory
of ten 100-byte frames consumes frames 0 to 4. -/
theorem memory_allocate_success_witness :
    ([5, 6, 7, 8, 9] : List ℕ).length = (MemoryState.init 1000 100).free_frames.length - 5 ∧
    ((PCB.init 1 450 5 0 0).proc_pages
        = ceilDiv (PCB.init 1 450 5 0 0).proc_size (MemoryState.init 1000 100).page_size →
      ([5, 6, 7, 8, 9] : List ℕ).length
        = (MemoryState.init 1000 100).free_frames.length
            - ceilDiv (PCB.init 1 450 5 0 0).proc_size (MemoryState.init 1000 100).page_size) ∧
    (∀ i, i < (PCB.init 1 450 5 0 0).proc_pages →
       ∃ f, ({ PCB.init 1 450 5 0 0 with
               page_table := [some 0, some 1, some 2, some 3, some 4] } : PCB).page_table[i]?
              = some (some f) ∧
         f ∈ (MemoryState.init 1000 100).free_frames ∧
         ∀ j, j < (PCB.init 1 450 5 0 0).proc_pages → j ≠ i →
           ({ PCB.init 1 450 5 0 0 with
              page_table := [some 0, some 1, some 2, some 3, some 4] } : PCB).page_table[j]?
             ≠ some (some f)) := by
  have h := memory_allocate_success_spec (MemoryState.init 1000 100) (PCB.init 1 450 5 0 0)
      { page_size := 100
        frame_table := [some (1, 0), some (1, 1), some (1, 2), some (1, 3), some (1, 4),
                        none, none, none, none, none]
        free_frames := [5, 6, 7, 8, 9] }
      { PCB.init 1 450 5 0 0 with page_table := [some 0, some 1, some 2, some 3, some 4] }
      (by decide) (by decide) (by decide)
  exact h

theorem find_decomp {p : PCB → Bool} {l : List PCB} {a : PCB} (h : l.find? p = some a) :
    ∃ l1 l2, l = l1 ++ a :: l2 ∧ (∀ b ∈ l1, p b = false) ∧ p a = true := by
  induction l with
  | nil => simp at h
  | cons b t ih =>
    rw [List.find?_cons] at h
    split at h
    case h_1 hb =>
      cases h
      exact ⟨[], t, rfl, by simp, hb⟩
    case h_2 hb =>
      obtain ⟨l1, l2, rfl, hl1, ha⟩ := ih h
      exact ⟨b :: l1, l2, rfl, by
        intro c hc
        rcases List.mem_cons.mp hc with rfl | hct
        · exact hb
        · exact hl1 c hct, ha⟩

theorem find_first {p : PCB → Bool} {l1 : List PCB} {a : PCB} (l2 : List PCB)
    (h1 : ∀ b ∈ l1, p b = false) (ha : p a = true) :
    (l1 ++ a :: l2).find? p = some a := by
  induction l1 with
  | nil => simp [List.find?_cons, ha]
  | cons b t ih =>
    have hb : p b = false := h1 b (by simp)
    rw [List.cons_append, List.find?_cons, hb]
    exact ih fun c hc => h1 c (List.mem_cons_of_mem _ hc)

theorem find_eq_head_filter (p : PCB → Bool) (l : List PCB) :
    l.find? p = (l.filter p).head? := by
  induction l with
  | nil => simp
  | cons b t ih =>
    rw [List.find?_cons, List.filter_cons]
    by_cases hb : p b = true
    · rw [hb]
      simp
    · rw [Bool.eq_false_iff.mpr hb]
      simp only [Bool.false_eq_true, if_false, ite_false]
      exact ih

theorem pyIndex_decomp {v : PCB} {l : List PCB} {i : ℕ} (h : pyIndex v l = some i) :
    ∃ l1 a l2, l = l1 ++ a :: l2 ∧ l1.length = i ∧ PCB.eqB a v = true ∧
      (∀ b ∈ l1, PCB.eqB b v = false) ∧ l[i]? = some a ∧ l.eraseIdx i = l1 ++ l2 := by
  induction l generalizing i with
  | nil => simp [pyIndex] at h
  | cons b t ih =>
    rw [pyIndex] at h
    split at h
    case isTrue hb =>
      cases h
      exact ⟨[], b, t, rfl, rfl, hb, by simp, by simp, by simp⟩
    case isFalse hb =>
      cases hj : pyIndex v t with
      | none => rw [hj] at h; simp at h
      | some j =>
        rw [hj] at h
        simp only [Option.map_some'] at h
        cases h
        obtain ⟨l1, a, l2, rfl, hlen, ha, hl1, hget, herase⟩ := ih hj
        refine ⟨b :: l1, a, l2, rfl, by simp [hlen], ha, ?_, ?_, ?_⟩
        · intro c hc
          rcases List.mem_cons.mp hc with rfl | hct
          · exact Bool.eq_false_iff.mpr hb
          · exact hl1 c hct
        · rw [List.getElem?_cons_succ]
          exact hget
        · rw [List.eraseIdx_cons_succ, herase, List.cons_append]

theorem pyIndex_found (v a : PCB) {l : List PCB} (hmem : a ∈ l) (ha : PCB.eqB a v = true) :
    ∃ i, pyIndex v l = some i := by
  induction l with
  | nil => simp at hmem
  | cons b t ih =>
    rw [pyIndex]
    by_cases hb : PCB.eqB b v = true
    · rw [if_pos hb]
      exact ⟨0, rfl⟩
    · rw [if_neg hb]
      rcases List.mem_cons.mp hmem with rfl | hat
      · exact absurd ha hb
      · obtain ⟨j, hj⟩ := ih hat
        exact ⟨j + 1, by rw [hj]; rfl⟩

theorem toPool_lt (p b : PCB) :
    PCB.lt (toPool p) b = decide ((toPool p).proc_size < b.proc_size) := by
  simp [PCB.lt, toPool]

theorem JobPool.enqueue_eq (q : List PCB) (p : PCB) :
    JobPool.enqueue q p = insort (toPool p) q :=
  rfl

theorem jobpool_fold (ps : List PCB) :
    ∀ acc : List PCB, allPool acc → sizeSorted acc →
    allPool (List.foldl JobPool.enqueue acc ps) ∧
    sizeSorted (List.foldl JobPool.enqueue acc ps) ∧
    (∀ s : ℕ, (List.foldl JobPool.enqueue acc ps).filter (fun q => decide (q.proc_size = s))
        = acc.filter (fun q => decide (q.proc_size = s))
          ++ (ps.map toPool).filter (fun q => decide (q.proc_size = s))) := by
  induction ps with
  | nil =>
    intro acc hall hsort
    exact ⟨hall, hsort, fun s => by simp⟩
  | cons p rest ih =>
    intro acc hall hsort
    have hall1 : allPool (JobPool.enqueue acc p) := by
      intro a ha
      rw [JobPool.enqueue_eq] at ha
      rcases (insort_mem _ a acc).mp ha with rfl | hmem
      · rfl
      · exact hall a hmem
    have hsort1 : sizeSorted (JobPool.enqueue acc p) :=
      insort_sorted (fun q => q.proc_size) (toPool p) acc (toPool_lt p) hsort
    obtain ⟨ha2, hs2, hf2⟩ := ih (JobPool.enqueue acc p) hall1 hsort1
    refine ⟨ha2, hs2, ?_⟩
    intro s
    rw [List.foldl_cons, hf2 s, JobPool.enqueue_eq,
      insort_filter (fun q => q.proc_size) (toPool p) acc s (toPool_lt p) hsort]
    rw [List.map_cons, List.filter_cons]
    by_cases hps : (toPool p).proc_size = s
    · rw [if_pos hps, if_pos (by simpa using hps)]
      simp
    · rw [if_neg hps, if_neg (by simpa using hps)]

/-- C6: for every job pool built by enqueuing processes in order and every
bound, `dequeue_largest` fails with QueueEmpty on the empty pool and with
NoFit when the pool is non-empty but no process fits; on success it
removes and returns a process that fits, of maximum size among the fitting
ones, and among pooled processes of that size the earliest-enqueued one. -/
theorem jobpool_dequeue_largest_spec (ps : List PCB) (free_mem : ℕ) :
    (JobPool.ofList ps = [] →
       JobPool.dequeue_largest (JobPool.ofList ps) free_mem
         = Except.error OSErr.queueEmpty) ∧
    (JobPool.ofList ps ≠ [] →
     (∀ q ∈ JobPool.ofList ps, free_mem < q.proc_size) →
       JobPool.dequeue_largest (JobPool.ofList ps) free_mem
         = Except.error OSErr.noFit) ∧
    (∀ r rest, JobPool.dequeue_largest (JobPool.ofList ps) free_mem
         = Except.ok (r, rest) →
       r.proc_size ≤ free_mem ∧
       (∀ q ∈ JobPool.ofList ps, q.proc_size ≤ free_mem →
          q.proc_size ≤ r.proc_size) ∧
       (ps.map toPool).find? (fun q => decide (q.proc_size = r.proc_size)) = some r ∧
       (∃ l1 l2, JobPool.ofList ps = l1 ++ r :: l2 ∧ rest = l1 ++ l2)) := by
  obtain ⟨hall, hsort, hfilter⟩ := jobpool_fold ps [] (by intro a ha; simp at ha) (by
    unfold sizeSorted
    exact List.Pairwise.nil)
  refine ⟨?_, ?_, ?_⟩
  · intro hnil
    rw [JobPool.dequeue_largest, if_pos (by simp [hnil])]
  · intro hne hnofit
    have hemp : (JobPool.ofList ps).isEmpty = false := by
      cases hq : JobPool.ofList ps with
      | nil => exact absurd hq hne
      | cons a t => rfl
    have hcond : ¬((JobPool.ofList ps).isEmpty = true) := by
      rw [hemp]
      simp
    have hfind : (JobPool.ofList ps).reverse.find?
        (fun p => decide (p.proc_size ≤ free_mem)) = none := by
      rw [List.find?_eq_none]
      intro x hx
      simp only [decide_eq_true_iff, not_le]
      exact hnofit x (List.mem_reverse.mp hx)
    rw [JobPool.dequeue_largest, if_neg hcond, hfind]
  · intro r rest h
    rw [JobPool.dequeue_largest] at h
    split at h
    next => exact absurd h (by simp)
    next hemp =>
      split at h
      next => exact absurd h (by simp)
      next pfound hfind =>
        split at h
        next => exact absurd h (by simp)
        next i hidx =>
          split at h
          next => exact absurd h (by simp)
          next r0 rest0 hpop =>
            simp only [Except.ok.injEq, Prod.mk.injEq] at h
            obtain ⟨rfl, rfl⟩ := h
            have hpfit : pfound.proc_size ≤ free_mem := by
              have := List.find?_some hfind
              simpa using this
            have hpmem : pfound ∈ JobPool.ofList ps :=
              List.mem_reverse.mp (List.mem_of_find?_eq_some hfind)
            have hploc : pfound.proc_loc = ProcLoc.jobPool := hall pfound hpmem
            obtain ⟨l1, a, l2, hsplit, hlen, haeq, hl1, hget, herase⟩ := pyIndex_decomp hidx
            rw [pyPop, hget] at hpop
            simp only [Option.some.injEq, Prod.mk.injEq] at hpop
            obtain ⟨rfl, rfl⟩ := hpop
            have haloc : a.proc_loc = ProcLoc.jobPool := by
              refine hall a ?_
              show a ∈ JobPool.ofList ps
              rw [hsplit]
              exact List.mem_append_right _ (by simp)
            have hsize : a.proc_size = pfound.proc_size := by
              rw [PCB.eqB] at haeq
              rw [haloc] at haeq
              simpa using haeq
            have hmax : ∀ q ∈ JobPool.ofList ps, q.proc_size ≤ free_mem →
                q.proc_size ≤ pfound.proc_size := by
              obtain ⟨r1, r2, hrsplit, hr1, _⟩ := find_decomp hfind
              have hq : JobPool.ofList ps = r2.reverse ++ pfound :: r1.reverse := by
                have hrr : (JobPool.ofList ps).reverse.reverse
                    = (r1 ++ pfound :: r2).reverse := by rw [hrsplit]
                rw [List.reverse_reverse] at hrr
                rw [hrr]
                simp
              intro q hqmem hqfit
              rw [hq] at hqmem
              rcases List.mem_append.mp hqmem with hq2 | hqp
              · have hsorted2 := hsort
                rw [show List.foldl JobPool.enqueue [] ps = JobPool.ofList ps from rfl,
                  hq] at hsorted2
                unfold sizeSorted at hsorted2
                rw [List.pairwise_append] at hsorted2
                exact hsorted2.2.2 q hq2 pfound (by simp)
              · rcases List.mem_cons.mp hqp with rfl | hq1
                · exact le_refl _
                · exfalso
                  have hfq : decide (q.proc_size ≤ free_mem) = false :=
                    hr1 q (List.mem_reverse.mp hq1)
                  simp only [decide_eq_false_iff_not, not_le] at hfq
                  exact absurd hqfit (not_le.mpr hfq)
            refine ⟨hsize ▸ hpfit, fun q hq hqf => hsize ▸ hmax q hq hqf,
              ?_, l1, l2, hsplit, herase⟩
            have hufirst : (JobPool.ofList ps).find?
                (fun q => decide (q.proc_size = a.proc_size)) = some a := by
              rw [hsplit]
              refine find_first l2 ?_ (by simp)
              intro b hb
              have hbloc : b.proc_loc = ProcLoc.jobPool := by
                refine hall b ?_
                show b ∈ JobPool.ofList ps
                rw [hsplit]
                exact List.mem_append_left _ hb
              have hbne := hl1 b hb
              rw [PCB.eqB] at hbne
              rw [hbloc] at hbne
              simp only [decide_eq_false_iff_not] at hbne
              rw [hsize]
              simpa using hbne
            rw [find_eq_head_filter] at hufirst ⊢
            rw [show List.foldl JobPool.enqueue [] ps = JobPool.ofList ps from rfl]
              at hfilter
            rw [hfilter a.proc_size] at hufirst
            simpa using hufirst

/-- C6 (witness): with pooled sizes 5, 9, 9, 12 and free memory 10, the
returned process is the earliest-enqueued process of size 9 (pid 2). -/
theorem jobpool_dequeue_largest_witness :
    (toPool (PCB.init 2 9 1 0 0)).proc_size ≤ 10 ∧
    (∀ q ∈ JobPool.ofList [PCB.init 1 5 1 0 0, PCB.init 2 9 1 0 0,
        PCB.init 3 9 1 0 0, PCB.init 4 12 1 0 0], q.proc_size ≤ 10 →
        q.proc_size ≤ (toPool (PCB.init 2 9 1 0 0)).proc_size) ∧
    (([PCB.init 1 5 1 0 0, PCB.init 2 9 1 0 0, PCB.init 3 9 1 0 0,
        PCB.init 4 12 1 0 0].map toPool).find?
        (fun q => decide (q.proc_size = (toPool (PCB.init 2 9 1 0 0)).proc_size))
      = some (toPool (PCB.init 2 9 1 0 0))) ∧
    (∃ l1 l2, JobPool.ofList [PCB.init 1 5 1 0 0, PCB.init 2 9 1 0 0,
        PCB.init 3 9 1 0 0, PCB.init 4 12 1 0 0] = l1 ++ toPool (PCB.init 2 9 1 0 0) :: l2 ∧
      [toPool (PCB.init 1 5 1 0 0), toPool (PCB.init 3 9 1 0 0),
        toPool (PCB.init 4 12 1 0 0)] = l1 ++ l2) :=
  (jobpool_dequeue_largest_spec
      [PCB.init 1 5 1 0 0, PCB.init 2 9 1 0 0, PCB.init 3 9 1 0 0, PCB.init 4 12 1 0 0]
      10).2.2
    (toPool (PCB.init 2 9 1 0 0))
    [toPool (PCB.init 1 5 1 0 0), toPool (PCB.init 3 9 1 0 0), toPool (PCB.init 4 12 1 0 0)]
    rfl

theorem toReady_lt (p b : PCB) :
    PCB.lt (toReady p) b = decide ((toReady p).next_est_burst < b.next_est_burst) := by
  simp [PCB.lt, toReady]

theorem CPU.enqueue_some (act : Option PCB) (rdy : List PCB) (p x : PCB)
    (h : act = some x) :
    CPU.enqueue ⟨act, rdy⟩ p = ⟨act, insort (toReady p) rdy⟩ := by
  subst h
  rfl

theorem cpu_fold (ps : List PCB) :
    ∀ (x : PCB) (rdy : List PCB), allReady rdy → burstSorted rdy →
    (List.foldl CPU.enqueue ⟨some x, rdy⟩ ps).active = some x ∧
    allReady (List.foldl CPU.enqueue ⟨some x, rdy⟩ ps).ready ∧
    burstSorted (List.foldl CPU.enqueue ⟨some x, rdy⟩ ps).ready ∧
    (∀ β : ℚ, (List.foldl CPU.enqueue ⟨some x, rdy⟩ ps).ready.filter
        (fun q => decide (q.next_est_burst = β))
      = rdy.filter (fun q => decide (q.next_est_burst = β))
        ++ (ps.map toReady).filter (fun q => decide (q.next_est_burst = β))) := by
  induction ps with
  | nil =>
    intro x rdy hall hsort
    exact ⟨rfl, hall, hsort, fun β => by simp⟩
  | cons p rest ih =>
    intro x rdy hall hsort
    have hall1 : allReady (insort (toReady p) rdy) := by
      intro a ha
      rcases (insort_mem _ a rdy).mp ha with rfl | hmem
      · rfl
      · exact hall a hmem
    have hsort1 : burstSorted (insort (toReady p) rdy) :=
      insort_sorted (fun q => q.next_est_burst) (toReady p) rdy (toReady_lt p) hsort
    obtain ⟨ha2, hr2, hs2, hf2⟩ := ih x (insort (toReady p) rdy) hall1 hsort1
    rw [List.foldl_cons, CPU.enqueue_some x rdy p x rfl]
    refine ⟨ha2, hr2, hs2, ?_⟩
    intro β
    rw [hf2 β,
      insort_filter (fun q => q.next_est_burst) (toReady p) rdy β (toReady_lt p) hsort]
    rw [List.map_cons, List.filter_cons]
    by_cases hps : (toReady p).next_est_burst = β
    · rw [if_pos hps, if_pos (by simpa using hps)]
      simp
    · rw [if_neg hps, if_neg (by simpa using hps)]

/-- C5 (counterexample): two ready processes with equal estimated burst 5,
pid 2 enqueued before pid 1; the dispatch takes pid 2, although pid 1 has
the smaller pid among the tied processes — ties are resolved by insertion
order, not by pid, because the ready-queue ordering of the PCB compares
only `next_est_burst`. -/
theorem cpu_dispatch_pid_tie_cex :
    CPU.ready_to_CPU (CPU.ofList [PCB.init 9 10 1 0 1, PCB.init 2 10 1 0 5,
        PCB.init 1 10 1 0 5])
      = Except.ok { active := some (toReady (PCB.init 2 10 1 0 5)),
                    ready := [toReady (PCB.init 1 10 1 0 5)] } ∧
    (toReady (PCB.init 2 10 1 0 5)).pid = 2 ∧
    (toReady (PCB.init 1 10 1 0 5)).pid = 1 ∧
    (toReady (PCB.init 1 10 1 0 5)).next_est_burst
      = (toReady (PCB.init 2 10 1 0 5)).next_est_burst ∧
    (1 : ℕ) < 2 ∧
    toReady (PCB.init 1 10 1 0 5) ∈ (CPU.ofList [PCB.init 9 10 1 0 1,
        PCB.init 2 10 1 0 5, PCB.init 1 10 1 0 5]).ready := by
  refine ⟨rfl, rfl, rfl, by decide, by decide, by decide⟩

/-- C5 (amended): whenever the CPU dispatches from a ready queue built by
admissions, the dispatched process has the minimum `next_est_burst` among
the ready processes, and among processes with equal estimate the
earliest-enqueued one is dispatched first (the ready-queue ordering of the
PCB compares only the burst estimate, so pid plays no role in ties). -/
theorem cpu_dispatch_min_burst (ps : List PCB) (c' : CPU)
    (h : CPU.ready_to_CPU (CPU.ofList ps) = Except.ok c') :
    ∃ p, c'.active = some p ∧ p ∈ (CPU.ofList ps).ready ∧
      (∀ q ∈ (CPU.ofList ps).ready, p.next_est_burst ≤ q.next_est_burst) ∧
      ((ps.drop 1).map toReady).find?
        (fun q => decide (q.next_est_burst = p.next_est_burst)) = some p := by
  cases ps with
  | nil =>
    rw [CPU.ofList] at h
    simp [CPU.ready_to_CPU, CPU.start] at h
  | cons p0 rest =>
    have hstep : CPU.ofList (p0 :: rest)
        = List.foldl CPU.enqueue ⟨some { p0 with proc_loc := ProcLoc.cpu }, []⟩ rest := by
      rw [CPU.ofList, List.foldl_cons]
      rfl
    obtain ⟨hact, hallr, hsortr, hfilt⟩ :=
      cpu_fold rest { p0 with proc_loc := ProcLoc.cpu } []
        (by intro a ha; simp at ha) (by unfold burstSorted; exact List.Pairwise.nil)
    rw [hstep] at h ⊢
    cases hready : (List.foldl CPU.enqueue ⟨some { p0 with proc_loc := ProcLoc.cpu }, []⟩
        rest).ready with
    | nil =>
      rw [CPU.ready_to_CPU, hready] at h
      exact absurd h (by simp)
    | cons hd tl =>
      rw [CPU.ready_to_CPU, hready] at h
      simp only [Except.ok.injEq] at h
      subst h
      refine ⟨hd, rfl, by simp, ?_, ?_⟩
      · intro q hq
        rw [hready] at hsortr
        unfold burstSorted at hsortr
        rw [List.pairwise_cons] at hsortr
        rcases List.mem_cons.mp hq with rfl | hqt
        · exact le_refl _
        · exact hsortr.1 q hqt
      · have hfromfilter := hfilt hd.next_est_burst
        rw [hready] at hfromfilter
        rw [List.filter_cons_of_pos (by simp)] at hfromfilter
        simp only [List.filter_nil, List.nil_append] at hfromfilter
        rw [List.drop_one, List.tail_cons]
        rw [find_eq_head_filter, ← hfromfilter]
        simp

/-- C5 (witness): after admitting a running process and two ready
processes of equal estimate, dispatch picks a minimal-burst process that
is the first of its estimate in admission order. -/
theorem cpu_dispatch_min_burst_witness :
    ∃ p, ({ active := some (toReady (PCB.init 2 10 1 0 5)),
            ready := [toReady (PCB.init 1 10 1 0 5)] } : CPU).active = some p ∧
      p ∈ (CPU.ofList [PCB.init 9 10 1 0 1, PCB.init 2 10 1 0 5,
             PCB.init 1 10 1 0 5]).ready ∧
      (∀ q ∈ (CPU.ofList [PCB.init 9 10 1 0 1, PCB.init 2 10 1 0 5,
             PCB.init 1 10 1 0 5]).ready, p.next_est_burst ≤ q.next_est_burst) ∧
      (([PCB.init 9 10 1 0 1, PCB.init 2 10 1 0 5, PCB.init 1 10 1 0 5].drop 1).map
          toReady).find? (fun q => decide (q.next_est_burst = p.next_est_burst))
        = some p :=
  cpu_dispatch_min_burst
    [PCB.init 9 10 1 0 1, PCB.init 2 10 1 0 5, PCB.init 1 10 1 0 5] _ rfl

theorem insort_ne_nil (x : PCB) (l : List PCB) : insort x l ≠ [] := by
  cases l with
  | nil => simp [insort]
  | cons b t =>
    rw [insort]
    split <;> simp

theorem disk_lt (p b : PCB) (hp : p.proc_loc = ProcLoc.disk) :
    PCB.lt p b = decide (p.cyl < b.cyl) := by
  simp [PCB.lt, hp]

theorem DiskDrive.inv_start : DiskDrive.Inv DiskDrive.start := by
  refine ⟨by simp [DiskDrive.start], ?_, ?_, ?_, ?_, ?_⟩ <;>
    simp [DiskDrive.start, cylSorted, allDisk, DiskDrive.servingItems,
      DiskDrive.collectingItems]

theorem DiskDrive.inv_enqueue (d : DiskDrive) (p : PCB) (h : DiskDrive.Inv d) :
    DiskDrive.Inv (d.enqueue p) := by
  obtain ⟨hfz, hs1, hs2, hd1, hd2, hse⟩ := h
  have hins : ∀ l, cylSorted l →
      cylSorted (insort { p with proc_loc := ProcLoc.disk } l) := fun l hl =>
    insort_sorted (fun q => q.cyl) _ l (fun b => disk_lt _ b rfl) hl
  have hmemd : ∀ l, allDisk l →
      allDisk (insort { p with proc_loc := ProcLoc.disk } l) := by
    intro l hl a ha
    rcases (insort_mem _ a l).mp ha with rfl | hal
    · rfl
    · exact hl a hal
  unfold DiskDrive.enqueue
  by_cases hf1 : d.q1.frozen
  · rw [if_pos hf1]
    by_cases he : d.q1.isEmptyQ
    · rw [if_pos he]
      unfold DiskDrive.Inv
      refine ⟨by simp [PriorityQueue.unfreeze, PriorityQueue.freeze], ?_, ?_, ?_, ?_, ?_⟩
      · exact hs1
      · exact hins _ hs2
      · exact hd1
      · exact hmemd _ hd2
      · intro hc
        simp only [DiskDrive.servingItems, PriorityQueue.unfreeze, PriorityQueue.freeze,
          PriorityQueue.enqueue, Bool.false_eq_true, if_false, ite_false] at hc
        exact absurd hc (insort_ne_nil _ _)
    · rw [if_neg he]
      unfold DiskDrive.Inv
      refine ⟨hfz, hs1, hins _ hs2, hd1, hmemd _ hd2, ?_⟩
      intro hc
      simp only [DiskDrive.servingItems, PriorityQueue.enqueue] at hc
      rw [if_pos hf1] at hc
      refine absurd ?_ he
      unfold PriorityQueue.isEmptyQ
      rw [hc]
      rfl
  · rw [if_neg hf1]
    by_cases he : d.q2.isEmptyQ
    · rw [if_pos he]
      unfold DiskDrive.Inv
      refine ⟨by simp [PriorityQueue.unfreeze, PriorityQueue.freeze], ?_, ?_, ?_, ?_, ?_⟩
      · exact hins _ hs1
      · exact hs2
      · exact hmemd _ hd1
      · exact hd2
      · intro hc
        simp only [DiskDrive.servingItems, PriorityQueue.unfreeze, PriorityQueue.freeze,
          PriorityQueue.enqueue, if_true, ite_true] at hc
        exact absurd hc (insort_ne_nil _ _)
    · rw [if_neg he]
      unfold DiskDrive.Inv
      refine ⟨hfz, hins _ hs1, hs2, hmemd _ hd1, hd2, ?_⟩
      intro hc
      simp only [DiskDrive.servingItems, PriorityQueue.enqueue] at hc
      rw [if_neg (by simpa using hf1)] at hc
      refine absurd ?_ he
      unfold PriorityQueue.isEmptyQ
      rw [hc]
      rfl

theorem PriorityQueue.dequeue_eq_nil (q : PriorityQueue) (h : q.items = []) :
    q.dequeue = none := by
  unfold PriorityQueue.dequeue
  rw [h]

theorem PriorityQueue.dequeue_eq_cons (q : PriorityQueue) (p : PCB) (t : List PCB)
    (h : q.items = p :: t) :
    q.dequeue = some (p, { q with items := t }) := by
  unfold PriorityQueue.dequeue
  rw [h]

theorem DiskDrive.dequeue_shape (d : DiskDrive) (p : PCB) (d' : DiskDrive)
    (h : d.dequeue = some (p, d')) :
    ∃ t, d.servingItems = p :: t ∧
      (t = [] → d'.side = !d.side ∧ d'.servingItems = d.collectingItems ∧
        d'.collectingItems = []) ∧
      (t ≠ [] → d'.side = d.side ∧ d'.servingItems = t ∧
        d'.collectingItems = d.collectingItems) := by
  unfold DiskDrive.dequeue at h
  by_cases hf1 : d.q1.frozen
  · rw [if_pos hf1] at h
    cases hq : d.q1.items with
    | nil =>
      rw [PriorityQueue.dequeue_eq_nil _ hq] at h
      exact absurd h (by simp)
    | cons p0 rest =>
      rw [PriorityQueue.dequeue_eq_cons _ _ _ hq] at h
      simp only [Option.some.injEq, Prod.mk.injEq] at h
      obtain ⟨rfl, rfl⟩ := h
      refine ⟨rest, ?_, ?_, ?_⟩
      · unfold DiskDrive.servingItems
        rw [if_pos hf1, hq]
      · intro ht
        subst ht
        refine ⟨?_, ?_, ?_⟩ <;>
          simp [DiskDrive.side, DiskDrive.servingItems, DiskDrive.collectingItems,
            PriorityQueue.isEmptyQ, PriorityQueue.unfreeze, PriorityQueue.freeze, hf1]
      · intro ht
        rw [if_neg (by simp [PriorityQueue.isEmptyQ, List.isEmpty_iff, ht])]
        refine ⟨rfl, ?_, ?_⟩ <;>
          simp [DiskDrive.servingItems, DiskDrive.collectingItems, hf1]
  · rw [if_neg hf1] at h
    cases hq : d.q2.items with
    | nil =>
      rw [PriorityQueue.dequeue_eq_nil _ hq] at h
      exact absurd h (by simp)
    | cons p0 rest =>
      rw [PriorityQueue.dequeue_eq_cons _ _ _ hq] at h
      simp only [Option.some.injEq, Prod.mk.injEq] at h
      obtain ⟨rfl, rfl⟩ := h
      refine ⟨rest, ?_, ?_, ?_⟩
      · unfold DiskDrive.servingItems
        rw [if_neg hf1, hq]
      · intro ht
        subst ht
        refine ⟨?_, ?_, ?_⟩ <;>
          simp [DiskDrive.side, DiskDrive.servingItems, DiskDrive.collectingItems,
            PriorityQueue.isEmptyQ, PriorityQueue.unfreeze, PriorityQueue.freeze, hf1]
      · intro ht
        rw [if_neg (by simp [PriorityQueue.isEmptyQ, List.isEmpty_iff, ht])]
        refine ⟨rfl, ?_, ?_⟩ <;>
          simp [DiskDrive.servingItems, DiskDrive.collectingItems, hf1]

theorem DiskDrive.inv_dequeue (d : DiskDrive) (p : PCB) (d' : DiskDrive)
    (hinv : DiskDrive.Inv d) (h : d.dequeue = some (p, d')) : DiskDrive.Inv d' := by
  obtain ⟨hfz, hs1, hs2, hd1, hd2, hse⟩ := hinv
  unfold DiskDrive.dequeue at h
  by_cases hf1 : d.q1.frozen
  · rw [if_pos hf1] at h
    cases hq : d.q1.items with
    | nil =>
      rw [PriorityQueue.dequeue_eq_nil _ hq] at h
      exact absurd h (by simp)
    | cons p0 rest =>
      rw [PriorityQueue.dequeue_eq_cons _ _ _ hq] at h
      simp only [Option.some.injEq, Prod.mk.injEq] at h
      obtain ⟨rfl, rfl⟩ := h
      have hs1t : cylSorted rest := by
        have htmp := hs1
        rw [hq] at htmp
        unfold cylSorted at htmp ⊢
        exact (List.pairwise_cons.mp htmp).2
      have hd1t : allDisk rest := by
        intro a ha
        exact hd1 a (by rw [hq]; exact List.mem_cons_of_mem _ ha)
      cases rest with
      | nil =>
        rw [if_pos (show ({ items := ([] : List PCB), frozen := d.q1.frozen }
            : PriorityQueue).isEmptyQ = true from rfl)]
        unfold DiskDrive.Inv
        refine ⟨by simp [PriorityQueue.unfreeze, PriorityQueue.freeze], ?_, hs2, ?_, hd2, ?_⟩
        · unfold cylSorted
          exact List.Pairwise.nil
        · intro a ha
          simp [PriorityQueue.unfreeze] at ha
        · intro hc
          simp [DiskDrive.collectingItems, PriorityQueue.unfreeze, PriorityQueue.freeze]
      | cons a b =>
        rw [if_neg (by simp [PriorityQueue.isEmptyQ])]
        unfold DiskDrive.Inv
        refine ⟨hfz, hs1t, hs2, hd1t, hd2, ?_⟩
        intro hc
        simp only [DiskDrive.servingItems] at hc
        rw [if_pos hf1] at hc
        simp at hc
  · rw [if_neg hf1] at h
    cases hq : d.q2.items with
    | nil =>
      rw [PriorityQueue.dequeue_eq_nil _ hq] at h
      exact absurd h (by simp)
    | cons p0 rest =>
      rw [PriorityQueue.dequeue_eq_cons _ _ _ hq] at h
      simp only [Option.some.injEq, Prod.mk.injEq] at h
      obtain ⟨rfl, rfl⟩ := h
      have hs2t : cylSorted rest := by
        have htmp := hs2
        rw [hq] at htmp
        unfold cylSorted at htmp ⊢
        exact (List.pairwise_cons.mp htmp).2
      have hd2t : allDisk rest := by
        intro a ha
        exact hd2 a (by rw [hq]; exact List.mem_cons_of_mem _ ha)
      cases rest with
      | nil =>
        rw [if_pos (show ({ items := ([] : List PCB), frozen := d.q2.frozen }
            : PriorityQueue).isEmptyQ = true from rfl)]
        unfold DiskDrive.Inv
        refine ⟨by simp [PriorityQueue.unfreeze, PriorityQueue.freeze], hs1, ?_, hd1, ?_, ?_⟩
        · unfold cylSorted
          exact List.Pairwise.nil
        · intro a ha
          simp [PriorityQueue.unfreeze] at ha
        · intro hc
          simp [DiskDrive.collectingItems, PriorityQueue.unfreeze, PriorityQueue.freeze]
      | cons a b =>
        rw [if_neg (by simp [PriorityQueue.isEmptyQ])]
        unfold DiskDrive.Inv
        refine ⟨hfz, hs1, hs2t, hd1, hd2t, ?_⟩
        intro hc
        simp only [DiskDrive.servingItems] at hc
        rw [if_neg (by simpa using hf1)] at hc
        simp at hc

theorem DiskDrive.reach_inv (d : DiskDrive) (h : DiskDrive.Reach d) : DiskDrive.Inv d := by
  induction h with
  | start => exact DiskDrive.inv_start
  | enq p _ ih => exact DiskDrive.inv_enqueue _ p ih
  | deq _ hdq ih => exact DiskDrive.inv_dequeue _ _ _ ih hdq

theorem DiskDrive.enqueue_live (d : DiskDrive) (p : PCB) (hne : d.servingItems ≠ []) :
    (d.enqueue p).side = d.side ∧ (d.enqueue p).servingItems = d.servingItems := by
  unfold DiskDrive.enqueue
  by_cases hf1 : d.q1.frozen
  · have he : d.q1.isEmptyQ = false := by
      unfold PriorityQueue.isEmptyQ
      unfold DiskDrive.servingItems at hne
      rw [if_pos hf1] at hne
      cases hx : d.q1.items with
      | nil => exact absurd hx hne
      | cons a b => rfl
    rw [if_pos hf1, if_neg (by rw [he]; simp)]
    exact ⟨rfl, by simp [DiskDrive.servingItems, hf1]⟩
  · have he : d.q2.isEmptyQ = false := by
      unfold PriorityQueue.isEmptyQ
      unfold DiskDrive.servingItems at hne
      rw [if_neg hf1] at hne
      cases hx : d.q2.items with
      | nil => exact absurd hx hne
      | cons a b => rfl
    rw [if_neg hf1, if_neg (by rw [he]; simp)]
    exact ⟨rfl, by simp [DiskDrive.servingItems, PriorityQueue.enqueue, hf1]⟩

theorem DiskDrive.foldl_enqueue_live (ps : List PCB) :
    ∀ d : DiskDrive, d.servingItems ≠ [] →
    (List.foldl DiskDrive.enqueue d ps).side = d.side ∧
    (List.foldl DiskDrive.enqueue d ps).servingItems = d.servingItems := by
  induction ps with
  | nil => exact fun d _ => ⟨rfl, rfl⟩
  | cons p rest ih =>
    intro d h
    obtain ⟨h1, h2⟩ := DiskDrive.enqueue_live d p h
    obtain ⟨h3, h4⟩ := ih (d.enqueue p) (by rw [h2]; exact h)
    rw [List.foldl_cons]
    exact ⟨h3.trans h1, h4.trans h2⟩

/-- C9: in every disk-drive state reachable from the initial state (first
queue unfrozen and collecting, second queue frozen) by any sequence of
enqueue and dequeue operations, exactly one of the two priority queues is
frozen. -/
theorem diskdrive_one_frozen (d : DiskDrive) (h : DiskDrive.Reach d) :
    d.q1.frozen ≠ d.q2.frozen :=
  (DiskDrive.reach_inv d h).1

/-- C9 (witness): the initial state has only the second queue frozen. -/
theorem diskdrive_one_frozen_witness :
    DiskDrive.start.q1.frozen ≠ DiskDrive.start.q2.frozen :=
  diskdrive_one_frozen DiskDrive.start DiskDrive.Reach.start

/-- C2: in every reachable disk-drive state, (i) while a service sweep is
live (the serving queue non-empty) any sequence of enqueues leaves the
serving queue and its role untouched; (ii) a dequeue returns the minimum
cylinder of the serving queue, and when it empties the serving queue the
collecting queue becomes the new serving queue (otherwise the sweep
continues on the remainder); (iii) two successive dequeues within the same
sweep, with arbitrary enqueues in between, return non-decreasing
cylinders. -/
theorem diskdrive_fscan_sweep (d : DiskDrive) (hr : DiskDrive.Reach d) :
    (d.servingItems ≠ [] → ∀ ps : List PCB,
       (List.foldl DiskDrive.enqueue d ps).side = d.side ∧
       (List.foldl DiskDrive.enqueue d ps).servingItems = d.servingItems) ∧
    (∀ p d', d.dequeue = some (p, d') →
       (∀ q ∈ d.servingItems, p.cyl ≤ q.cyl) ∧
       (d.servingItems.tail = [] → d'.side = !d.side ∧
          d'.servingItems = d.collectingItems) ∧
       (d.servingItems.tail ≠ [] → d'.side = d.side ∧
          d'.servingItems = d.servingItems.tail)) ∧
    (∀ p d' ps q d'', d.dequeue = some (p, d') → d'.side = d.side →
       (List.foldl DiskDrive.enqueue d' ps).dequeue = some (q, d'') →
       p.cyl ≤ q.cyl) := by
  obtain ⟨hfz, hs1, hs2, hd1, hd2, hse⟩ := DiskDrive.reach_inv d hr
  have hsorted : cylSorted d.servingItems := by
    unfold DiskDrive.servingItems
    split
    · exact hs1
    · exact hs2
  refine ⟨fun hne ps => DiskDrive.foldl_enqueue_live ps d hne, ?_, ?_⟩
  · intro p d' h
    obtain ⟨t, hserv, hnil, hcons⟩ := DiskDrive.dequeue_shape d p d' h
    have hpairs : ∀ q ∈ t, p.cyl ≤ q.cyl := by
      have htmp := hsorted
      rw [hserv] at htmp
      unfold cylSorted at htmp
      exact (List.pairwise_cons.mp htmp).1
    refine ⟨?_, ?_, ?_⟩
    · intro q hq
      rw [hserv] at hq
      rcases List.mem_cons.mp hq with rfl | hqt
      · exact le_refl _
      · exact hpairs q hqt
    · intro ht
      rw [hserv] at ht
      simp only [List.tail_cons] at ht
      exact ⟨(hnil ht).1, (hnil ht).2.1⟩
    · intro ht
      rw [hserv] at ht
      simp only [List.tail_cons] at ht
      refine ⟨(hcons ht).1, ?_⟩
      rw [(hcons ht).2.1, hserv]
      simp
  · intro p d' ps q d'' h hside hq
    obtain ⟨t, hserv, hnil, hcons⟩ := DiskDrive.dequeue_shape d p d' h
    have hpairs : ∀ r ∈ t, p.cyl ≤ r.cyl := by
      have htmp := hsorted
      rw [hserv] at htmp
      unfold cylSorted at htmp
      exact (List.pairwise_cons.mp htmp).1
    by_cases htn : t = []
    · have hflip := (hnil htn).1
      rw [hside] at hflip
      exact absurd hflip (by simp)
    · have hd'serv : d'.servingItems = t := (hcons htn).2.1
      have hfold := DiskDrive.foldl_enqueue_live ps d' (by rw [hd'serv]; exact htn)
      obtain ⟨t2, hserv2, _, _⟩ := DiskDrive.dequeue_shape _ q d'' hq
      rw [hfold.2, hd'serv] at hserv2
      refine hpairs q ?_
      rw [hserv2]
      simp

/-- C2 (witness): the sweep properties at the concrete reachable drive
that collected requests for cylinders 50 and 20. -/
theorem diskdrive_fscan_sweep_witness :
    (diskW.servingItems ≠ [] → ∀ ps : List PCB,
       (List.foldl DiskDrive.enqueue diskW ps).side = diskW.side ∧
       (List.foldl DiskDrive.enqueue diskW ps).servingItems = diskW.servingItems) ∧
    (∀ p d', diskW.dequeue = some (p, d') →
       (∀ q ∈ diskW.servingItems, p.cyl ≤ q.cyl) ∧
       (diskW.servingItems.tail = [] → d'.side = !diskW.side ∧
          d'.servingItems = diskW.collectingItems) ∧
       (diskW.servingItems.tail ≠ [] → d'.side = diskW.side ∧
          d'.servingItems = diskW.servingItems.tail)) ∧
    (∀ p d' ps q d'', diskW.dequeue = some (p, d') → d'.side = diskW.side →
       (List.foldl DiskDrive.enqueue d' ps).dequeue = some (q, d'') →
       p.cyl ≤ q.cyl) :=
  diskdrive_fscan_sweep diskW
    (DiskDrive.Reach.enq (dproc 2 20) (DiskDrive.Reach.enq (dproc 1 50)
      DiskDrive.Reach.start))
